import Mathlib

/-!
Verification of the simulated cloud data pipeline (ingest → clean → enrich →
serve) in this repository.  The Python source operates on pandas DataFrames;
here a DataFrame is shallowly embedded as a list of typed columns together
with a row-major list of cells.  Machine floats are modelled by `ℚ`; the
float value NaN (which pandas produces for skipped/undefined entries) and a
missing cell are both modelled by `Value.null`; a Python exception escaping a
function is modelled by `Option`/a `none` result.  Wall-clock timestamps,
the pseudo-random `data_quality` values, the per-row `hash`, and the
floating-point square root used by the row-wise standard deviation are passed
in as explicit parameters, since their exact values are environment
dependent.

The arithmetic on `ℚ` is written with the `qAdd`/`qSub`/`qMul`/`qDiv`
wrappers below, each proved equal to the standard `+`/`-`/`*`/`/` of `ℚ`;
the wrappers evaluate inside the kernel (the library's `Rat.add` etc. are
deliberately irreducible), so concrete runs of the model can be checked by
`decide`.
-/

/-- Addition on `ℚ`, in a form the kernel evaluates. -/
def qAdd (a b : ℚ) : ℚ := mkRat (a.num * b.den + b.num * a.den) (a.den * b.den)

/-- Subtraction on `ℚ`, in a form the kernel evaluates. -/
def qSub (a b : ℚ) : ℚ := mkRat (a.num * b.den - b.num * a.den) (a.den * b.den)

/-- Multiplication on `ℚ`, in a form the kernel evaluates. -/
def qMul (a b : ℚ) : ℚ := mkRat (a.num * b.num) (a.den * b.den)

/-- Inverse on `ℚ` (0 ↦ 0), in a form the kernel evaluates. -/
def qInv (a : ℚ) : ℚ := Rat.divInt a.den a.num

/-- Division on `ℚ` (division by 0 gives 0, which the model never relies
on: every division of the source is guarded), in a form the kernel
evaluates. -/
def qDiv (a b : ℚ) : ℚ := qMul a (qInv b)

/-- Sum of a list of rationals, in a form the kernel evaluates. -/
def qSum (l : List ℚ) : ℚ := l.foldr qAdd 0

theorem qAdd_eq (a b : ℚ) : qAdd a b = a + b := (Rat.add_def' a b).symm

theorem qSub_eq (a b : ℚ) : qSub a b = a - b := (Rat.sub_def' a b).symm

theorem qMul_eq (a b : ℚ) : qMul a b = a * b := by
  rw [qMul, Rat.mul_def, Rat.normalize_eq_mkRat]

theorem qInv_eq (a : ℚ) : qInv a = a⁻¹ := (Rat.inv_def a).symm

theorem qDiv_eq (a b : ℚ) : qDiv a b = a / b := by
  rw [qDiv, qMul_eq, qInv_eq, div_eq_mul_inv]

theorem qSum_eq (l : List ℚ) : qSum l = l.sum := by
  induction l with
  | nil => rfl
  | cons x xs ih => simp [qSum, List.foldr, qAdd_eq] at ih ⊢; rw [ih]

/-- One cell of a DataFrame: a numeric value, a string value, or a missing
value (`None`/`NaN` in the source). -/
inductive Value where
  | num (q : ℚ)
  | str (s : String)
  | null
deriving DecidableEq

/-- A column header: its label and whether its dtype is numeric
(`float64`/`int64` in the source's dtype checks). -/
structure Col where
  name : String
  numeric : Bool
deriving DecidableEq

/-- A row is the list of cells across the columns, in column order. -/
abbrev Row := List Value

/-- A DataFrame: ordered typed columns plus row-major cells. -/
structure DF where
  cols : List Col
  rows : List Row
deriving DecidableEq

/-- Well-formedness: every row has exactly one cell per column. -/
def WF (df : DF) : Prop := ∀ r ∈ df.rows, r.length = df.cols.length

instance (df : DF) : Decidable (WF df) := by
  unfold WF; infer_instance

/-- The labels of a DataFrame's columns, in order. -/
def colNames (df : DF) : List String := df.cols.map (fun c => c.name)

/-- First column index carrying the given label (pandas label lookup). -/
def colIdxByName (df : DF) (nm : String) : Option Nat :=
  df.cols.findIdx? (fun c => c.name = nm)

/-- The cells of column `j`, top to bottom. -/
def colVals (df : DF) (j : Nat) : List Value :=
  df.rows.map (fun r => r.getD j Value.null)

/-- The cells of the column labelled `nm`, if such a column exists. -/
def getCol (df : DF) (nm : String) : Option (List Value) :=
  (colIdxByName df nm).map (colVals df)

/-- The numeric content of a cell, `none` for strings and missing values. -/
def toNum? : Value → Option ℚ
  | Value.num q => some q
  | _ => none

/-- The non-null numeric values of column `j` (pandas skips NaN). -/
def colNums (df : DF) (j : Nat) : List ℚ :=
  (colVals df j).filterMap toNum?

/-- `df[name] = values` in pandas: overwrite the column in place if the label
exists, otherwise append a new column on the right. -/
def setCol (df : DF) (c : Col) (vals : List Value) : DF :=
  match colIdxByName df c.name with
  | some j => ⟨df.cols.set j c, List.zipWith (fun r v => r.set j v) df.rows vals⟩
  | none => ⟨df.cols ++ [c], List.zipWith (fun r v => r ++ [v]) df.rows vals⟩

/-- `DataFrame.drop_duplicates()`: keep the first occurrence of each row. -/
def pdDropDuplicates (rows : List Row) : List Row :=
  rows.foldl (fun acc r => if r ∈ acc then acc else acc ++ [r]) []

/-- Number of rows marked by `DataFrame.duplicated()`: rows identical to an
earlier row across all columns. -/
def duplicatedCount (rows : List Row) : Nat :=
  rows.length - (pdDropDuplicates rows).length

/-- Minimum of two rationals, written with `if` so that it evaluates inside
the kernel. -/
def minQ (x y : ℚ) : ℚ := if x ≤ y then x else y

/-- Maximum of two rationals, written with `if` so that it evaluates inside
the kernel. -/
def maxQ (x y : ℚ) : ℚ := if x ≤ y then y else x

/-- Insertion into a sorted list, for the median computation. -/
def insertSorted (x : ℚ) : List ℚ → List ℚ
  | [] => [x]
  | y :: ys => if x ≤ y then x :: y :: ys else y :: insertSorted x ys

/-- Insertion sort on rationals. -/
def sortQ (l : List ℚ) : List ℚ := l.foldr insertSorted []

/-- `Series.median()` over the non-null values: middle element for odd
counts, mean of the two middle elements for even counts, NaN (`none`) for an
empty series. -/
def pdMedian (l : List ℚ) : Option ℚ :=
  let s := sortQ l
  let n := s.length
  if n = 0 then none
  else if n % 2 = 1 then some (s.getD (n / 2) 0)
  else some (qDiv (qAdd (s.getD (n / 2 - 1) 0) (s.getD (n / 2) 0)) 2)

/-- Minimum of a list of rationals (`Series.min()` over non-null values). -/
def listMin : List ℚ → Option ℚ
  | [] => none
  | x :: xs =>
    match listMin xs with
    | none => some x
    | some y => some (minQ x y)

/-- Maximum of a list of rationals (`Series.max()` over non-null values). -/
def listMax : List ℚ → Option ℚ
  | [] => none
  | x :: xs =>
    match listMax xs with
    | none => some x
    | some y => some (maxQ x y)

/-! ## Run Metrics Tracker (`src/utils/metrics.py`, `PipelineMetrics`) -/

/-- One recorded pipeline run (`PipelineMetrics.add_run`'s dict entry; the
wall-clock timestamp field is irrelevant to every derived metric and is
omitted). -/
structure RunRec where
  duration : ℚ
  success : Bool
  records : Nat
deriving DecidableEq

/-- The `PipelineMetrics` instance state: the run list and the running
`total_records` counter. -/
structure PipelineMetrics where
  runs : List RunRec
  total_records : Nat
deriving DecidableEq

/-- A fresh `PipelineMetrics()` instance. -/
def PipelineMetrics.init : PipelineMetrics := ⟨[], 0⟩

/-- `PipelineMetrics.add_run`: append the run; accumulate `total_records`
only when the run succeeded. -/
def add_run (m : PipelineMetrics) (duration : ℚ) (success : Bool)
    (records : Nat) : PipelineMetrics :=
  ⟨m.runs ++ [⟨duration, success, records⟩],
   if success then m.total_records + records else m.total_records⟩

/-- `PipelineMetrics.get_success_rate`: 100.0 with no runs recorded,
otherwise successes over total times 100. -/
def get_success_rate (m : PipelineMetrics) : ℚ :=
  if m.runs = [] then 100
  else qMul (qDiv ((m.runs.countP (fun r => r.success) : ℚ)) ((m.runs.length : ℚ))) 100

/-- `PipelineMetrics.get_avg_duration`: 0.0 with no runs recorded, otherwise
the mean duration. -/
def get_avg_duration (m : PipelineMetrics) : ℚ :=
  if m.runs = [] then 0
  else qDiv (qSum (m.runs.map (fun r => r.duration))) ((m.runs.length : ℚ))

/-- `PipelineMetrics.get_total_records`. -/
def get_total_records (m : PipelineMetrics) : Nat := m.total_records

/-! ## Quality Checker (`src/utils/metrics.py`, `DataQualityChecker`) -/

/-- The dict returned by `DataQualityChecker.check_quality`. -/
structure QualityReport where
  completeness : ℚ
  validity : ℚ
  uniqueness : ℚ
  issues : List String
  overall_score : ℚ
deriving DecidableEq, Inhabited

/-- Number of missing (null) cells in the DataFrame
(`df.isnull().sum().sum()`). -/
def countNulls (df : DF) : Nat :=
  (df.rows.map (fun r => r.countP (fun v => v = Value.null))).sum

/-- Labels of the numeric columns that contain at least one negative value
(`(df[col] < 0).any()`; a NaN cell compares false, so only non-null negative
values count).  These drive the validity penalty, in column order. -/
def offendingCols (df : DF) : List String :=
  ((List.range df.cols.length).filter (fun j =>
      (df.cols.getD j ⟨"", false⟩).numeric ∧
      (colNums df j).any (fun q => q < 0))).map
    (fun j => (df.cols.getD j ⟨"", false⟩).name)

/-- The ASCII single-quote character used by the source's issue strings. -/
def sglq : String := String.singleton (Char.ofNat 39)

/-- `DataQualityChecker.check_quality`.  The source divides by
`total_cells` and by `df.shape[0]`; on a dataset with zero cells both
completeness and uniqueness are 0/0 — a ZeroDivisionError with plain Python
ints, NaN under numpy scalar arithmetic — and is modelled as `none`
(no defined report).  `overall_score` averages the *unfloored* local
variable `validity`, while the returned `validity` field is floored at 0. -/
def check_quality (df : DF) : Option QualityReport :=
  let total_cells := df.rows.length * df.cols.length
  let missing_cells := countNulls df
  if total_cells = 0 then none
  else
    let completeness : ℚ :=
      qMul (qDiv (qSub ((total_cells : ℚ)) ((missing_cells : ℚ))) ((total_cells : ℚ))) 100
    let issues1 : List String :=
      if 0 < missing_cells then
        ["Found " ++ toString missing_cells ++ " missing values"] else []
    let offending := offendingCols df
    let validity : ℚ := qSub 100 (qMul 5 ((offending.length : ℚ)))
    let issues2 : List String :=
      offending.map (fun c =>
        "Column " ++ sglq ++ c ++ sglq ++ " contains negative values")
    let duplicate_rows := duplicatedCount df.rows
    let uniqueness : ℚ :=
      qMul (qDiv (qSub ((df.rows.length : ℚ)) ((duplicate_rows : ℚ))) ((df.rows.length : ℚ))) 100
    let issues3 : List String :=
      if 0 < duplicate_rows then
        ["Found " ++ toString duplicate_rows ++ " duplicate rows"] else []
    some
      { completeness := completeness
        validity := maxQ validity 0
        uniqueness := uniqueness
        issues := issues1 ++ issues2 ++ issues3
        overall_score := qDiv (qAdd (qAdd completeness validity) uniqueness) 3 }

/-! ## Storage Stage (`src/simulators/aws_services.py`, `S3Simulator`;
`src/pipeline/orchestrator.py`, `PipelineOrchestrator.ingest_data`) -/

/-- `dict[key] = value` on a Python dict whose insertion order we track as an
association list: an existing key keeps its position, a new key is appended. -/
def upsert (k : String) (v : DF) : List (String × DF) → List (String × DF)
  | [] => [(k, v)]
  | (k0, v0) :: rest =>
    if k0 = k then (k, v) :: rest else (k0, v0) :: upsert k v rest

/-- Look a key up in such an association list. -/
def assocFind (k : String) : List (String × DF) → Option DF
  | [] => none
  | (k0, v0) :: rest => if k0 = k then some v0 else assocFind k rest

/-- The dict returned by `S3Simulator.upload_data`. -/
structure UploadResult where
  key : String
  size : Nat
deriving DecidableEq

/-- `S3Simulator.upload_data`: the in-memory `storage[key] = df` happens
first; then `df.to_csv(...)` writes the durable copy with no surrounding
try/except, so an I/O error there escapes the function after the storage map
was already updated.  `ioError` says whether that write raises; the result is
`none` exactly when the exception propagates. -/
def upload_data (storage : List (String × DF)) (df : DF) (key : String)
    (ioError : Bool) : List (String × DF) × Option UploadResult :=
  let storage1 := upsert key df storage
  if ioError then (storage1, none)
  else (storage1, some ⟨key, df.rows.length⟩)

/-- One entry of the orchestrator's execution log, as built by
`PipelineOrchestrator.ingest_data` (`stage`, `data`, `s3_key`, `records`; the
wall-clock timestamp is carried as an opaque string). -/
structure StageResult where
  stage : String
  data : DF
  s3_key : String
  records : Nat
  timestamp : String
deriving DecidableEq

/-- The orchestrator state touched by ingestion: the S3 storage map and the
execution log. -/
structure OrchState where
  s3storage : List (String × DF)
  execution_log : List StageResult
deriving DecidableEq

/-- `PipelineOrchestrator.ingest_data`: upload to S3 under the generated
key, then build the `StageResult` and append it to the execution log.  When
the durable write inside `upload_data` raises, the exception propagates out
of `ingest_data` too (there is no handler): no `StageResult` is returned and
the log is not appended, though the storage map was already mutated. -/
def ingest_data (st : OrchState) (df : DF) (key ts : String) (ioError : Bool) :
    OrchState × Option StageResult :=
  match upload_data st.s3storage df key ioError with
  | (storage1, none) => (⟨storage1, st.execution_log⟩, none)
  | (storage1, some _) =>
    let result : StageResult := ⟨"ingestion", df, key, df.rows.length, ts⟩
    (⟨storage1, st.execution_log ++ [result]⟩, some result)

/-! ## Cleaning Stage (`src/simulators/aws_services.py`,
`GlueSimulator.process_data`) -/

/-- `df[col].fillna(v, inplace=True)` for column `j`: replace each missing
cell by `v`; with `none` (the median of an empty column is NaN) the column
is left as is. -/
def fillColumn (rows : List Row) (j : Nat) (fill : Option Value) : List Row :=
  match fill with
  | none => rows
  | some fv =>
    rows.map (fun r => if r.getD j Value.null = Value.null then r.set j fv else r)

/-- The missing-value pass of `process_data`, over every column in order:
numeric columns are filled with their (post-dedup) median, other columns with
the literal `"Unknown"`. -/
def fillMissing (cols : List Col) (rows : List Row) : List Row :=
  (List.range cols.length).foldl
    (fun rs j =>
      if (cols.getD j ⟨"", false⟩).numeric then
        fillColumn rs j
          ((pdMedian ((rs.map (fun r => r.getD j Value.null)).filterMap toNum?)).map
            Value.num)
      else fillColumn rs j (some (Value.str ("Unknown"))))
    rows

/-- `GlueSimulator.process_data`: drop duplicate rows, fill missing values
(median for numeric columns, `"Unknown"` otherwise), then append the
constant `processed_timestamp` column and the per-row pseudo-random
`data_quality` column (`rand i` models `np.random.uniform(0.9, 1.0)` for row
`i`). -/
def process_data (df : DF) (ts : String) (rand : Nat → ℚ) : DF :=
  let rows1 := pdDropDuplicates df.rows
  let rows2 := fillMissing df.cols rows1
  let df2 : DF := ⟨df.cols, rows2⟩
  let df3 := setCol df2 ⟨"processed_timestamp", false⟩
    (rows2.map (fun _ => Value.str ts))
  setCol df3 ⟨"data_quality", true⟩
    ((List.range df3.rows.length).map (fun i => Value.num (rand i)))

/-! ## Enrichment Stage (`src/simulators/aws_services.py`,
`LambdaSimulator.transform_data`) -/

/-- Labels of the numeric columns, in order
(`df.select_dtypes(include=['number']).columns.tolist()`). -/
def numericNames (df : DF) : List String :=
  (df.cols.filter (fun c => c.numeric)).map (fun c => c.name)

/-- The non-null numeric cells of row `r` under the columns labelled
`names`, resolved against DataFrame `d` (`df[numeric_cols]` row-wise with
NaN skipped, as pandas row aggregations do). -/
def rowNums (d : DF) (names : List String) (r : Row) : List ℚ :=
  names.filterMap (fun nm =>
    (colIdxByName d nm).bind (fun j => toNum? (r.getD j Value.null)))

/-- `.sum(axis=1)`: NaN-skipping row sum (0.0 when every cell is NaN). -/
def pdRowSum (l : List ℚ) : Value := Value.num (qSum l)

/-- `.mean(axis=1)`: NaN-skipping row mean; NaN when no value remains. -/
def pdRowMean (l : List ℚ) : Value :=
  if l.length = 0 then Value.null else Value.num (qDiv (qSum l) ((l.length : ℚ)))

/-- Sample variance with `ddof = 1`, used under the square root by
`.std(axis=1)`; only applied to lists of length at least 2. -/
def sampleVar (l : List ℚ) : ℚ :=
  let n : ℚ := (l.length : ℚ)
  let mean := qDiv (qSum l) n
  qDiv (qSum (l.map (fun x => qMul (qSub x mean) (qSub x mean)))) (qSub n 1)

/-- `.std(axis=1)` (pandas default `ddof = 1`): NaN for fewer than two
values, otherwise the square root of the sample variance.  The
floating-point square root is the abstract parameter `sqrt`. -/
def pdRowStd (sqrt : ℚ → ℚ) (l : List ℚ) : Value :=
  if l.length < 2 then Value.null else Value.num (sqrt (sampleVar l))

/-- Min-max normalization of one cell: `(v - min) / (max - min)`, with a
missing cell staying missing (NaN arithmetic in the source). -/
def normCell (m M : ℚ) (v : Value) : Value :=
  match toNum? v with
  | some q => Value.num (qDiv (qSub q m) (qSub M m))
  | none => Value.null

/-- One iteration of the normalization loop of `transform_data`: for the
numeric column labelled `c`, append `<c>_normalized = (v - min)/(max - min)`
unless the column is empty of values or `max > min` fails (equal min and
max, the zero-range case, emits nothing and does not raise). -/
def normStep (d : DF) (c : String) : DF :=
  match colIdxByName d c with
  | none => d
  | some j =>
    match listMin (colNums d j), listMax (colNums d j) with
    | some m, some M =>
      if m < M then
        setCol d ⟨c ++ "_normalized", true⟩ ((colVals d j).map (normCell m M))
      else d
    | _, _ => d

/-- The first half of `transform_data`'s numeric block: append the
row-wise `numeric_sum`, `numeric_mean` and `numeric_std` columns over the
originally-numeric columns (each assignment's right-hand side is evaluated
against the DataFrame as it stands at that line, exactly as in the source). -/
def addAggregates (df : DF) (sqrt : ℚ → ℚ) : DF :=
  let numeric_cols := numericNames df
  let dfa := setCol df ⟨"numeric_sum", true⟩
    (df.rows.map (fun r => pdRowSum (rowNums df numeric_cols r)))
  let dfb := setCol dfa ⟨"numeric_mean", true⟩
    (dfa.rows.map (fun r => pdRowMean (rowNums dfa numeric_cols r)))
  setCol dfb ⟨"numeric_std", true⟩
    (dfb.rows.map (fun r => pdRowStd sqrt (rowNums dfb numeric_cols r)))

/-- `LambdaSimulator.transform_data`: when at least one numeric column
exists, append the row-wise `numeric_sum`, `numeric_mean` and `numeric_std`
over the originally-numeric columns, then min-max-normalize (up to) the
first 3 of those columns; afterwards always append the constant
`transform_timestamp` column and the per-row `record_hash` (the opaque
`hashFn` models Python's `hash(str(row))`). -/
def transform_data (df : DF) (ts : String) (hashFn : Row → ℚ)
    (sqrt : ℚ → ℚ) : DF :=
  let numeric_cols := numericNames df
  let df1 :=
    if numeric_cols.isEmpty then df
    else (numeric_cols.take 3).foldl normStep (addAggregates df sqrt)
  let df2 := setCol df1 ⟨"transform_timestamp", false⟩
    (df1.rows.map (fun _ => Value.str ts))
  setCol df2 ⟨"record_hash", true⟩ (df2.rows.map (fun r => Value.num (hashFn r)))

/-! ## Serving Stage (`src/simulators/aws_services.py`, `AthenaSimulator`) -/

/-- One entry of the Athena query log. -/
structure QueryLogEntry where
  query : String
  timestamp : String
  rows_returned : Nat
deriving DecidableEq

/-- The `AthenaSimulator` state: the table registry and the query log. -/
structure AthenaState where
  tables : List (String × DF)
  queries : List QueryLogEntry
deriving DecidableEq

/-- `AthenaSimulator.store_data`: register the dataset under the table name,
overwriting any prior dataset there. -/
def store_data (st : AthenaState) (df : DF) (tableName : String) : AthenaState :=
  ⟨upsert tableName df st.tables, st.queries⟩

/-- `str.upper()` over the characters of the query (the queries of interest
are ASCII; Unicode-only case mappings are outside the model). -/
def pyUpperChars (l : List Char) : List Char := l.map Char.toUpper

/-- Does the character list start with the pattern? -/
def startsWithL : List Char → List Char → Bool
  | [], _ => true
  | _ :: _, [] => false
  | p :: ps, c :: cs => p = c && startsWithL ps cs

/-- The characters of the separator `'LIMIT'`. -/
def limitChars : List Char := [Char.ofNat 76, Char.ofNat 73, Char.ofNat 77, Char.ofNat 73, Char.ofNat 84]

/-- Worker for `splitOnLIMIT`, structurally recursive on a fuel argument so
that it evaluates inside the kernel; every step consumes at least one
character, so fuel `l.length` is always enough. -/
def splitOnLIMITF (fuel : Nat) (l : List Char) : List (List Char) :=
  match fuel with
  | 0 => [l]
  | fuel + 1 =>
    match l with
    | [] => [[]]
    | c :: cs =>
      if startsWithL limitChars (c :: cs) then
        [] :: splitOnLIMITF fuel (cs.drop 4)
      else
        match splitOnLIMITF fuel cs with
        | [] => [[c]]
        | piece :: rest => (c :: piece) :: rest

/-- `str.split('LIMIT')`: pieces between non-overlapping left-to-right
occurrences of the 5-character separator. -/
def splitOnLIMIT (l : List Char) : List (List Char) := splitOnLIMITF l.length l

/-- `str.strip().split()`: whitespace-delimited tokens, empties discarded. -/
def pySplitWs : List Char → List Char → List (List Char)
  | [], cur => if cur.isEmpty then [] else [cur.reverse]
  | c :: cs, cur =>
    if c.isWhitespace then
      if cur.isEmpty then pySplitWs cs [] else cur.reverse :: pySplitWs cs []
    else pySplitWs cs (c :: cur)

/-- Python `int(...)` on an already-stripped token: an optional sign, then at
least one ASCII digit (digit-separating underscores, accepted by Python, are
not modelled; no token in the claims uses them). -/
def pyParseIntChars (cs : List Char) : Option ℤ :=
  let (sign, ds) : ℤ × List Char :=
    match cs with
    | c :: rest =>
      if c = Char.ofNat 43 then (1, rest)
      else if c = Char.ofNat 45 then (-1, rest)
      else (1, cs)
    | [] => (1, [])
  if ds.isEmpty then none
  else if ds.all Char.isDigit then
    some (sign * (Int.ofNat (ds.foldl (fun acc c => acc * 10 + (c.toNat - 48)) 0)))
  else none

/-- The `LIMIT` extraction of `execute_query`, exactly as the source's
guarded `try` block computes it: uppercase the query, split on `'LIMIT'`,
take the piece after the first occurrence, take its first whitespace token
and parse it as a Python int; any failure along the way (`'LIMIT' not in
query`, no token, unparsable token) yields `none` (the bare `except: pass`). -/
def extractLimit (query : String) : Option ℤ :=
  match splitOnLIMIT (pyUpperChars query.toList) with
  | _ :: after :: _ =>
    match pySplitWs after [] with
    | tok :: _ => pyParseIntChars tok
    | [] => none
  | _ => none

/-- `df.head(n)`: the first `n` rows for `n ≥ 0`; for negative `n`, all rows
but the last `|n|` (pandas `df[:n]` semantics). -/
def pdHead (df : DF) (n : ℤ) : DF :=
  if 0 ≤ n then ⟨df.cols, df.rows.take n.toNat⟩
  else ⟨df.cols, df.rows.take (df.rows.length - (-n).toNat)⟩

/-- `AthenaSimulator.execute_query`: an unknown table returns an empty
DataFrame at once — before the query-log append, which is therefore skipped.
Otherwise apply the `LIMIT` truncation when one parses, ignore it when it
does not, and append one log entry recording the query text and the number
of rows returned. -/
def execute_query (st : AthenaState) (query tableName ts : String) :
    DF × AthenaState :=
  match assocFind tableName st.tables with
  | none => (⟨[], []⟩, st)
  | some df =>
    let dfOut :=
      match extractLimit query with
      | some n => pdHead df n
      | none => df
    (dfOut, ⟨st.tables, st.queries ++ [⟨query, ts, dfOut.rows.length⟩]⟩)

/-! ## Concrete datasets used by the witnesses and counterexamples -/

/-- The labels `transform_data` assigns to derived columns. -/
def reservedNames : List String :=
  ["numeric_sum", "numeric_mean", "numeric_std", "transform_timestamp",
   "record_hash"]

/-- The spec's scenario dataset `temp = [-5, 10, 20]`. -/
def dfTemp : DF :=
  ⟨[⟨"temp", true⟩], [[Value.num (-5)], [Value.num 10], [Value.num 20]]⟩

/-- One row of 21 numeric columns `c0..c20`, every value −1: each column
triggers the validity penalty, driving the unfloored validity to −5. -/
def df21 : DF :=
  ⟨(List.range 21).map (fun i => ⟨"c" ++ toString i, true⟩),
   [List.replicate 21 (Value.num (-1))]⟩

/-- A 10-row, two-column table for the query round-trip. -/
def dfW10 : DF :=
  ⟨[⟨"id", true⟩, ⟨"label", false⟩],
   (List.range 10).map (fun i =>
     [Value.num ((i : ℚ)), Value.str ("row" ++ toString i)])⟩

/-- The Athena state after `setup_query` registered `dfW10` under the
default table name. -/
def stW10 : AthenaState := store_data ⟨[], []⟩ dfW10 ("pipeline_data")

/-- Four numeric columns and one textual column: `a` spans 0..10, `b` is
constant (zero range), `c` spans 1..3, and `d` is the fourth numeric column
(beyond the first three). -/
def dfW4 : DF :=
  ⟨[⟨"a", true⟩, ⟨"b", true⟩, ⟨"c", true⟩, ⟨"d", true⟩, ⟨"tag", false⟩],
   [[Value.num 0, Value.num 5, Value.num 1, Value.num 2, Value.str ("u")],
    [Value.num 10, Value.num 5, Value.num 3, Value.num 9, Value.str ("v")]]⟩

/-- A single numeric column with a single row, the smallest dataset on which
`numeric_std` is computed from one value per row. -/
def dfOneNum : DF := ⟨[⟨"x", true⟩], [[Value.num 5]]⟩

/-- Invariant carried through the enrichment stage's column additions:
`d` is `df` with extra columns appended on the right — well-formed, same row
count, and with every original column's cells unchanged. -/
def Extends (df d : DF) : Prop :=
  WF d ∧ (∃ extra, d.cols = df.cols ++ extra) ∧
  d.rows.length = df.rows.length ∧
  ∀ j, j < df.cols.length → colVals d j = colVals df j


/-! ## Basic lemmas about the embedded operations -/

theorem colIdxByName_none_iff (d : DF) (nm : String) :
    colIdxByName d nm = none ↔ nm ∉ colNames d := by
  rw [colIdxByName, List.findIdx?_eq_none_iff]
  simp [colNames, eq_comm]

theorem assocFind_upsert_self (k : String) (v : DF) (l : List (String × DF)) :
    assocFind k (upsert k v l) = some v := by
  induction l with
  | nil => simp [upsert, assocFind]
  | cons kv rest ih =>
    obtain ⟨k0, v0⟩ := kv
    by_cases h : k0 = k <;> simp [upsert, assocFind, h, ih]

theorem foldl_dedup_length_le (rows : List Row) :
    ∀ acc : List Row,
      (rows.foldl (fun acc r => if r ∈ acc then acc else acc ++ [r]) acc).length
        ≤ acc.length + rows.length := by
  induction rows with
  | nil => intro acc; simp
  | cons r rs ih =>
    intro acc
    simp only [List.foldl_cons, List.length_cons]
    by_cases h : r ∈ acc
    · have := ih acc
      simp only [h, if_true]
      omega
    · have := ih (acc ++ [r])
      simp only [h, if_false]
      simp only [List.length_append, List.length_cons, List.length_nil] at this
      omega

theorem pdDropDuplicates_length_le (rows : List Row) :
    (pdDropDuplicates rows).length ≤ rows.length := by
  have := foldl_dedup_length_le rows []
  simpa [pdDropDuplicates] using this

theorem colVals_length (d : DF) (j : Nat) : (colVals d j).length = d.rows.length := by
  simp [colVals]

theorem setCol_rows_length (d : DF) (c : Col) (vals : List Value)
    (h : vals.length = d.rows.length) :
    (setCol d c vals).rows.length = d.rows.length := by
  unfold setCol
  cases hidx : colIdxByName d c.name <;> simp [List.length_zipWith, h]

theorem setCol_cols_length_le (d : DF) (c : Col) (vals : List Value) :
    d.cols.length ≤ (setCol d c vals).cols.length := by
  unfold setCol
  cases hidx : colIdxByName d c.name <;> simp

theorem fillColumn_length (rows : List Row) (j : Nat) (fill : Option Value) :
    (fillColumn rows j fill).length = rows.length := by
  unfold fillColumn
  cases fill <;> simp

theorem fillMissing_length (cols : List Col) (rows : List Row) :
    (fillMissing cols rows).length = rows.length := by
  unfold fillMissing
  generalize List.range cols.length = js
  induction js generalizing rows with
  | nil => rfl
  | cons j js ih =>
    simp only [List.foldl_cons]
    rw [ih]
    split <;> rw [fillColumn_length]

theorem process_data_rows_le (df : DF) (ts : String) (rand : Nat → ℚ) :
    (process_data df ts rand).rows.length ≤ df.rows.length := by
  unfold process_data
  rw [setCol_rows_length _ _ _ (by simp), setCol_rows_length _ _ _ (by simp)]
  show (fillMissing df.cols (pdDropDuplicates df.rows)).length ≤ df.rows.length
  rw [fillMissing_length]
  exact pdDropDuplicates_length_le _

theorem process_data_cols_le (df : DF) (ts : String) (rand : Nat → ℚ) :
    df.cols.length ≤ (process_data df ts rand).cols.length := by
  unfold process_data
  dsimp only
  exact le_trans
    (setCol_cols_length_le
      ⟨df.cols, fillMissing df.cols (pdDropDuplicates df.rows)⟩
      ⟨"processed_timestamp", false⟩
      ((fillMissing df.cols (pdDropDuplicates df.rows)).map (fun _ => Value.str ts)))
    (setCol_cols_length_le _ _ _)

theorem normStep_rows_length (d : DF) (c : String) :
    (normStep d c).rows.length = d.rows.length := by
  unfold normStep
  split
  · rfl
  · split
    · split
      · exact setCol_rows_length _ _ _ (by simp [colVals_length])
      · rfl
    · rfl

theorem foldl_normStep_rows_length (cs : List String) :
    ∀ d : DF, (cs.foldl normStep d).rows.length = d.rows.length := by
  induction cs with
  | nil => intro d; rfl
  | cons c cs ih =>
    intro d
    simp only [List.foldl_cons]
    rw [ih, normStep_rows_length]

theorem normStep_cols_le (d : DF) (c : String) :
    d.cols.length ≤ (normStep d c).cols.length := by
  unfold normStep
  split
  · exact le_refl _
  · split
    · split
      · exact setCol_cols_length_le _ _ _
      · exact le_refl _
    · exact le_refl _

theorem foldl_normStep_cols_le (cs : List String) :
    ∀ d : DF, d.cols.length ≤ (cs.foldl normStep d).cols.length := by
  induction cs with
  | nil => intro d; exact le_refl _
  | cons c cs ih =>
    intro d
    simp only [List.foldl_cons]
    exact le_trans (normStep_cols_le d c) (ih _)

theorem addAggregates_rows_length (df : DF) (sqrt : ℚ → ℚ) :
    (addAggregates df sqrt).rows.length = df.rows.length := by
  unfold addAggregates
  rw [setCol_rows_length _ _ _ (by simp), setCol_rows_length _ _ _ (by simp),
    setCol_rows_length _ _ _ (by simp)]

theorem addAggregates_cols_le (df : DF) (sqrt : ℚ → ℚ) :
    df.cols.length ≤ (addAggregates df sqrt).cols.length := by
  unfold addAggregates
  dsimp only
  exact le_trans
    (le_trans
      (setCol_cols_length_le df ⟨"numeric_sum", true⟩
        (df.rows.map (fun r => pdRowSum (rowNums df (numericNames df) r))))
      (setCol_cols_length_le _ _ _))
    (setCol_cols_length_le _ _ _)

theorem transform_data_rows_length (df : DF) (ts : String) (hashFn : Row → ℚ)
    (sqrt : ℚ → ℚ) :
    (transform_data df ts hashFn sqrt).rows.length = df.rows.length := by
  unfold transform_data
  rw [setCol_rows_length _ _ _ (by simp), setCol_rows_length _ _ _ (by simp)]
  split
  · rfl
  · rw [foldl_normStep_rows_length, addAggregates_rows_length]

theorem transform_data_cols_le (df : DF) (ts : String) (hashFn : Row → ℚ)
    (sqrt : ℚ → ℚ) :
    df.cols.length ≤ (transform_data df ts hashFn sqrt).cols.length := by
  unfold transform_data
  refine le_trans ?_ (le_trans (setCol_cols_length_le _ _ _) (setCol_cols_length_le _ _ _))
  split
  · exact le_refl _
  · exact le_trans (addAggregates_cols_le df sqrt) (foldl_normStep_cols_le _ _)

theorem addRuns_total (rs : List RunRec) :
    ∀ m : PipelineMetrics,
      get_total_records
        (rs.foldl (fun m r => add_run m r.duration r.success r.records) m)
        = m.total_records
          + ((rs.filter (fun r => r.success)).map (fun r => r.records)).sum := by
  induction rs with
  | nil => intro m; simp [get_total_records]
  | cons r rs ih =>
    intro m
    simp only [List.foldl_cons]
    rw [ih]
    by_cases h : r.success
    · simp [add_run, List.filter_cons, h]
      omega
    · simp [add_run, List.filter_cons, h]

/-! ## Claim theorems -/

/-- C1: the claim demands that `check_quality` not fail on a dataset with
zero rows (zero cells) and return defined numeric fields.  The code divides
`(total_cells - missing_cells)` by `total_cells = 0` and
`(row_count - duplicates)` by `row_count = 0` there, so no defined report
exists: the model returns `none` on both zero-row shapes. -/
theorem check_quality_zero_rows_undefined :
    check_quality ⟨[⟨"a", true⟩], []⟩ = none ∧
    check_quality ⟨[⟨"a", true⟩, ⟨"b", false⟩], []⟩ = none := by decide

/-- C2: the claim demands that an I/O error from the durable CSV write be
caught and logged, with `ingest_data` still returning its `StageResult`.
The code has no handler: when the write raises, the exception propagates out
of `ingest_data` — no `StageResult` is produced and nothing is appended to
the execution log (the in-memory storage map was already mutated). -/
theorem ingest_io_error_propagates :
    ∀ (os : OrchState) (df : DF) (key ts : String),
      (ingest_data os df key ts true).2 = none ∧
      (ingest_data os df key ts true).1.execution_log = os.execution_log ∧
      (ingest_data os df key ts true).1.s3storage = upsert key df os.s3storage := by
  intro os df key ts
  simp [ingest_data, upload_data]

/-- C3 counterexample: a call to `execute_query` on an unregistered table
name appends nothing to the query log — the log length does not grow by
one, contradicting the claim for that input. -/
theorem execute_query_unknown_table_unlogged :
    ((execute_query ⟨[], []⟩ "SELECT 1" "t" "ts").2).queries.length
      ≠ (⟨[], []⟩ : AthenaState).queries.length + 1 := by decide

/-- C3 amended: a call on a registered table appends exactly one entry
`{query_text, timestamp, rows_returned}`; a call on an unregistered table
returns early and appends nothing. -/
theorem execute_query_log_append :
    ∀ (st : AthenaState) (q t ts : String),
      ((execute_query st q t ts).2).queries =
        match assocFind t st.tables with
        | some _ => st.queries ++ [⟨q, ts, (execute_query st q t ts).1.rows.length⟩]
        | none => st.queries := by
  intro st q t ts
  unfold execute_query
  cases h : assocFind t st.tables <;> simp

/-- C7: the claim demands a defined `numeric_std` in every row even with a
single numeric column.  pandas `.std(axis=1)` uses `ddof = 1`, so a row with
exactly one numeric value yields NaN: on the one-column dataset the code
produces an undefined `numeric_std` cell (while `numeric_sum` and
`numeric_mean` are defined). -/
theorem transform_single_numeric_std_nan :
    getCol (transform_data dfOneNum ("T") (fun _ => 0) (fun _ => 0)) ("numeric_std")
        = some [Value.null] ∧
    getCol (transform_data dfOneNum ("T") (fun _ => 0) (fun _ => 0)) ("numeric_sum")
        = some [Value.num 5] ∧
    getCol (transform_data dfOneNum ("T") (fun _ => 0) (fun _ => 0)) ("numeric_mean")
        = some [Value.num 5] := by decide

/-- C8: a fresh metrics tracker reports success rate 100.0 and average
duration 0.0, and after any sequence of recorded runs `total_records` is the
sum of the record counts of the successful runs only. -/
theorem metrics_defaults_and_total_records :
    get_success_rate PipelineMetrics.init = 100 ∧
    get_avg_duration PipelineMetrics.init = 0 ∧
    ∀ rs : List RunRec,
      get_total_records
        (rs.foldl (fun m r => add_run m r.duration r.success r.records)
          PipelineMetrics.init)
        = ((rs.filter (fun r => r.success)).map (fun r => r.records)).sum :=
  ⟨rfl, rfl, fun rs => by rw [addRuns_total]; simp [PipelineMetrics.init]⟩

/-- C10: `execute_query` is read-only on the table registry: whatever the
query text and table name, the registered tables are unchanged. -/
theorem execute_query_tables_unchanged :
    ∀ (st : AthenaState) (q t ts : String),
      ((execute_query st q t ts).2).tables = st.tables := by
  intro st q t ts
  unfold execute_query
  cases h : assocFind t st.tables <;> simp

/-- C5: the cleaning stage never increases the row count, the enrichment
stage and the serving stage preserve it exactly (serving registers the
dataset unchanged, and ingestion passes the dataset through untouched), and
the column count never decreases from ingest through enrichment. -/
theorem pipeline_count_invariants :
    ∀ (df : DF) (ts : String) (rand : Nat → ℚ) (hashFn : Row → ℚ)
      (sqrt : ℚ → ℚ) (st : AthenaState) (os : OrchState) (key t : String),
      (process_data df ts rand).rows.length ≤ df.rows.length ∧
      (transform_data df ts hashFn sqrt).rows.length = df.rows.length ∧
      assocFind t (store_data st df t).tables = some df ∧
      (ingest_data os df key ts false).2 = some ⟨"ingestion", df, key, df.rows.length, ts⟩ ∧
      df.cols.length ≤ (process_data df ts rand).cols.length ∧
      df.cols.length ≤ (transform_data df ts hashFn sqrt).cols.length := by
  intro df ts rand hashFn sqrt st os key t
  refine ⟨process_data_rows_le df ts rand,
    transform_data_rows_length df ts hashFn sqrt,
    ?_, ?_,
    process_data_cols_le df ts rand,
    transform_data_cols_le df ts hashFn sqrt⟩
  · exact assocFind_upsert_self t df st.tables
  · simp [ingest_data, upload_data]

theorem maxQ_of_nonneg (x : ℚ) (hx : 0 ≤ x) : maxQ x 0 = x := by
  unfold maxQ
  split
  · exact (le_antisymm (by assumption) hx).symm
  · rfl

/-- C4 counterexample: on `df21` (21 numeric columns, each with a negative
value) the returned report has completeness 100, floored validity 0 and
uniqueness 100, yet `overall_score` is 65 — the average of the *unfloored*
validity −5 — and not `(100 + 0 + 100)/3`.  The claim's equation over the
returned fields fails at this input. -/
theorem overall_score_counterexample :
    ((check_quality df21).getD default).completeness = 100 ∧
    ((check_quality df21).getD default).validity = 0 ∧
    ((check_quality df21).getD default).uniqueness = 100 ∧
    ((check_quality df21).getD default).overall_score = 65 ∧
    ((check_quality df21).getD default).overall_score
      ≠ (((check_quality df21).getD default).completeness
          + ((check_quality df21).getD default).validity
          + ((check_quality df21).getD default).uniqueness) / 3 := by
  refine ⟨by decide, by decide, by decide, by decide, ?_⟩
  have h1 : ((check_quality df21).getD default).overall_score = 65 := by decide
  have h2 : ((check_quality df21).getD default).completeness = 100 := by decide
  have h3 : ((check_quality df21).getD default).validity = 0 := by decide
  have h4 : ((check_quality df21).getD default).uniqueness = 100 := by decide
  rw [h1, h2, h3, h4]
  norm_num

/-- C4 amended: whenever `check_quality` returns a report,
`overall_score = (completeness + rawValidity + uniqueness) / 3` where
`rawValidity = 100 − 5·(number of offending numeric columns)` is the local
validity *before* the floor at 0; this agrees with the claim's
mean-of-returned-fields exactly when at most 20 columns offend (raw validity
nonnegative). -/
theorem overall_score_unfloored (df : DF) (h : check_quality df ≠ none) :
    ((check_quality df).getD default).overall_score
      = (((check_quality df).getD default).completeness
          + (100 - 5 * ((offendingCols df).length : ℚ))
          + ((check_quality df).getD default).uniqueness) / 3
    ∧ ((offendingCols df).length ≤ 20 →
        ((check_quality df).getD default).overall_score
          = (((check_quality df).getD default).completeness
              + ((check_quality df).getD default).validity
              + ((check_quality df).getD default).uniqueness) / 3) := by
  have hne : ¬ (df.rows.length * df.cols.length = 0) := by
    intro h0
    apply h
    unfold check_quality
    rw [if_pos h0]
  constructor
  · simp only [check_quality, if_neg hne, Option.getD_some]
    simp only [qSub_eq, qMul_eq, qAdd_eq, qDiv_eq]
  · intro h20
    have hv : (0 : ℚ) ≤ 100 - 5 * ((offendingCols df).length : ℚ) := by
      have hc : ((offendingCols df).length : ℚ) ≤ 20 := by exact_mod_cast h20
      linarith
    simp only [check_quality, if_neg hne, Option.getD_some]
    simp only [qSub_eq, qMul_eq, qAdd_eq, qDiv_eq]
    rw [maxQ_of_nonneg _ hv]

/-- C4 witness: on the spec's `temp = [-5, 10, 20]` dataset one column
offends, the floor is inactive, and the overall score is the mean of the
three returned fields, as `overall_score_unfloored` instantiates. -/
theorem overall_score_unfloored_witness :
    check_quality dfTemp ≠ none ∧
    ((check_quality dfTemp).getD default).overall_score
      = (((check_quality dfTemp).getD default).completeness
          + ((check_quality dfTemp).getD default).validity
          + ((check_quality dfTemp).getD default).uniqueness) / 3 :=
  ⟨by decide, (overall_score_unfloored dfTemp (by decide)).2 (by decide)⟩

/-- C9 counterexample: `LIMIT -2` parses (Python `int` accepts a sign), so
it is not caught-and-ignored, yet the result is `df.head(-2)` — on the
registered 10-row table, 8 rows: neither "the first `n` rows" for the
parsed value nor the full-table fallback the claim prescribes for malformed
limit values. -/
theorem execute_query_negative_limit :
    extractLimit ("SELECT * LIMIT -2") = some (-2) ∧
    dfW10.rows.length = 10 ∧
    (execute_query stW10 ("SELECT * LIMIT -2") ("pipeline_data") ("ts")).1.rows.length = 8 ∧
    (execute_query stW10 ("SELECT * LIMIT -2") ("pipeline_data") ("ts")).1 ≠ dfW10 ∧
    (execute_query stW10 ("SELECT * LIMIT -2") ("pipeline_data") ("ts")).1.rows ≠ [] := by
  decide

/-- C9 amended: on a registered table, a query whose extracted `LIMIT`
token parses to a nonnegative `n` returns exactly the first `n` rows with
the original columns; a query with no parsable limit (no `LIMIT`, or a
malformed token — the caught `except`) returns the full table; a limit
parsing to a negative `-k` returns all rows but the last `k` (pandas
`head` semantics).  Every such call appends exactly one log entry. -/
theorem execute_query_limit_spec (st : AthenaState) (q t ts : String) (df : DF)
    (hreg : assocFind t st.tables = some df) :
    (∀ n : ℤ, extractLimit q = some n → 0 ≤ n →
      (execute_query st q t ts).1 = ⟨df.cols, df.rows.take n.toNat⟩) ∧
    (∀ n : ℤ, extractLimit q = some n → n < 0 →
      (execute_query st q t ts).1
        = ⟨df.cols, df.rows.take (df.rows.length - (-n).toNat)⟩) ∧
    (extractLimit q = none → (execute_query st q t ts).1 = df) ∧
    (execute_query st q t ts).2.queries.length = st.queries.length + 1 := by
  unfold execute_query
  rw [hreg]
  refine ⟨?_, ?_, ?_, ?_⟩
  · intro n hn hpos
    simp only [hn, pdHead, if_pos hpos]
  · intro n hn hneg
    have : ¬ (0 ≤ n) := by omega
    simp only [hn, pdHead, if_neg this]
  · intro hn
    simp only [hn]
  · cases hl : extractLimit q <;> simp [hl]

/-- C9 witness: the spec's round trip — `SELECT * LIMIT 2` against the
registered 10-row table returns exactly its first two rows with the
original columns, and the query log grows by one. -/
theorem execute_query_limit_spec_witness :
    (execute_query stW10 ("SELECT * LIMIT 2") ("pipeline_data") ("ts")).1
        = ⟨dfW10.cols, dfW10.rows.take (Int.toNat 2)⟩ ∧
    (execute_query stW10 ("SELECT * LIMIT 2") ("pipeline_data") ("ts")).2.queries.length
        = stW10.queries.length + 1 :=
  ⟨(execute_query_limit_spec stW10 ("SELECT * LIMIT 2") ("pipeline_data") ("ts")
      dfW10 (by decide)).1 2 (by decide) (by decide),
   (execute_query_limit_spec stW10 ("SELECT * LIMIT 2") ("pipeline_data") ("ts")
      dfW10 (by decide)).2.2.2⟩

/-! ## Lemmas towards the normalization specification -/

theorem minQ_eq (x y : ℚ) : minQ x y = min x y := by rw [minQ, min_def]

theorem maxQ_eq (x y : ℚ) : maxQ x y = max x y := by rw [maxQ, max_def]

theorem listMin_eq_none_iff (l : List ℚ) : listMin l = none ↔ l = [] := by
  cases l with
  | nil => simp [listMin]
  | cons x xs =>
    simp only [listMin]
    cases listMin xs <;> simp

theorem listMax_eq_none_iff (l : List ℚ) : listMax l = none ↔ l = [] := by
  cases l with
  | nil => simp [listMax]
  | cons x xs =>
    simp only [listMax]
    cases listMax xs <;> simp

theorem listMin_le {l : List ℚ} {m : ℚ} (h : listMin l = some m) :
    ∀ x ∈ l, m ≤ x := by
  induction l generalizing m with
  | nil => simp [listMin] at h
  | cons x xs ih =>
    simp only [listMin] at h
    cases hxs : listMin xs with
    | none =>
      rw [hxs] at h
      simp only [Option.some.injEq] at h
      have hnil : xs = [] := (listMin_eq_none_iff xs).mp hxs
      subst hnil
      subst h
      simp
    | some y =>
      rw [hxs] at h
      simp only [Option.some.injEq] at h
      subst h
      intro z hz
      rcases List.mem_cons.mp hz with rfl | hz2
      · rw [minQ_eq]; exact min_le_left _ _
      · rw [minQ_eq]
        exact le_trans (min_le_right _ _) (ih hxs z hz2)

theorem listMin_mem {l : List ℚ} {m : ℚ} (h : listMin l = some m) : m ∈ l := by
  induction l generalizing m with
  | nil => simp [listMin] at h
  | cons x xs ih =>
    simp only [listMin] at h
    cases hxs : listMin xs with
    | none =>
      rw [hxs] at h
      simp only [Option.some.injEq] at h
      simp [h]
    | some y =>
      rw [hxs] at h
      simp only [Option.some.injEq] at h
      subst h
      rw [minQ_eq, min_def]
      split
      · simp
      · simp [ih hxs]

theorem le_listMax {l : List ℚ} {M : ℚ} (h : listMax l = some M) :
    ∀ x ∈ l, x ≤ M := by
  induction l generalizing M with
  | nil => simp [listMax] at h
  | cons x xs ih =>
    simp only [listMax] at h
    cases hxs : listMax xs with
    | none =>
      rw [hxs] at h
      simp only [Option.some.injEq] at h
      have hnil : xs = [] := (listMax_eq_none_iff xs).mp hxs
      subst hnil
      subst h
      simp
    | some y =>
      rw [hxs] at h
      simp only [Option.some.injEq] at h
      subst h
      intro z hz
      rcases List.mem_cons.mp hz with rfl | hz2
      · rw [maxQ_eq]; exact le_max_left _ _
      · rw [maxQ_eq]
        exact le_trans (ih hxs z hz2) (le_max_right _ _)

theorem listMax_mem {l : List ℚ} {M : ℚ} (h : listMax l = some M) : M ∈ l := by
  induction l generalizing M with
  | nil => simp [listMax] at h
  | cons x xs ih =>
    simp only [listMax] at h
    cases hxs : listMax xs with
    | none =>
      rw [hxs] at h
      simp only [Option.some.injEq] at h
      simp [h]
    | some y =>
      rw [hxs] at h
      simp only [Option.some.injEq] at h
      subst h
      rw [maxQ_eq, max_def]
      split
      · simp [ih hxs]
      · simp

theorem not_append_eq_of_not_suffix (s t u : String)
    (h : ¬ (t.data <:+ u.data)) : s ++ t ≠ u := by
  intro he
  apply h
  rw [← he, String.data_append]
  exact List.suffix_append s.data t.data

theorem string_append_right_cancel {s1 s2 t : String} (h : s1 ++ t = s2 ++ t) :
    s1 = s2 := by
  have hd : s1.data ++ t.data = s2.data ++ t.data := by
    rw [← String.data_append, ← String.data_append, h]
  exact String.ext (List.append_cancel_right hd)

theorem findIdx?_append_some {α : Type} (p : α → Bool) (l1 l2 : List α) (j : Nat)
    (h : l1.findIdx? p = some j) : (l1 ++ l2).findIdx? p = some j := by
  rw [List.findIdx?_eq_some_iff_getElem] at h ⊢
  obtain ⟨hlt, hp, hmin⟩ := h
  have hlt2 : j < (l1 ++ l2).length := by
    simp only [List.length_append]
    omega
  refine ⟨hlt2, ?_, ?_⟩
  · rw [List.getElem_append_left hlt]
    exact hp
  · intro k hk
    rw [List.getElem_append_left (Nat.lt_trans hk hlt)]
    exact hmin k hk

theorem findIdx?_append_none {α : Type} (p : α → Bool) (l1 l2 : List α)
    (h : l1.findIdx? p = none) :
    (l1 ++ l2).findIdx? p = (l2.findIdx? p).map (fun i => l1.length + i) := by
  rw [List.findIdx?_eq_none_iff] at h
  cases h2 : l2.findIdx? p with
  | none =>
    rw [List.findIdx?_eq_none_iff] at h2
    simp only [Option.map_none']
    rw [List.findIdx?_eq_none_iff]
    intro x hx
    rcases List.mem_append.mp hx with h1 | hl2
    · exact h x h1
    · exact h2 x hl2
  | some i =>
    rw [List.findIdx?_eq_some_iff_getElem] at h2
    obtain ⟨hlt, hp, hmin⟩ := h2
    simp only [Option.map_some']
    rw [List.findIdx?_eq_some_iff_getElem]
    have hlt2 : l1.length + i < (l1 ++ l2).length := by
      simp only [List.length_append]
      omega
    refine ⟨hlt2, ?_, ?_⟩
    · rw [List.getElem_append_right (Nat.le_add_right _ _)]
      simpa using hp
    · intro k hk
      by_cases hkl : k < l1.length
      · rw [List.getElem_append_left hkl]
        have := h l1[k] (List.getElem_mem _)
        simp [this]
      · have hkge : l1.length ≤ k := Nat.le_of_not_lt hkl
        rw [List.getElem_append_right hkge]
        have hki : k - l1.length < i := by omega
        have := hmin (k - l1.length) hki
        simpa using this

theorem findIdx?_some_lt {α : Type} {p : α → Bool} {l : List α} {j : Nat}
    (h : l.findIdx? p = some j) : j < l.length := by
  rw [List.findIdx?_eq_some_iff_findIdx_eq] at h
  exact h.1

theorem zipWith_append_rows_length {rows : List Row} {vals : List Value}
    (h : vals.length = rows.length) :
    (List.zipWith (fun r v => r ++ [v]) rows vals).length = rows.length := by
  simp [List.length_zipWith, h]

theorem zipWith_append_colVals {rows : List Row} {vals : List Value}
    (h : vals.length = rows.length) (j : Nat)
    (hj : ∀ r ∈ rows, j < r.length) :
    (List.zipWith (fun r v => r ++ [v]) rows vals).map (fun r => r.getD j Value.null)
      = rows.map (fun r => r.getD j Value.null) := by
  induction rows generalizing vals with
  | nil => simp
  | cons r rs ih =>
    cases vals with
    | nil => simp at h
    | cons v vs =>
      simp only [List.zipWith_cons_cons, List.map_cons]
      congr 1
      · exact List.getD_append _ _ _ _ (hj r (by simp))
      · exact ih (by simpa using h) (fun r2 hr2 => hj r2 (by simp [hr2]))

theorem zipWith_append_colVals_new {rows : List Row} {vals : List Value}
    (h : vals.length = rows.length) (k : Nat)
    (hk : ∀ r ∈ rows, r.length = k) :
    (List.zipWith (fun r v => r ++ [v]) rows vals).map (fun r => r.getD k Value.null)
      = vals := by
  induction rows generalizing vals with
  | nil =>
    cases vals with
    | nil => rfl
    | cons v vs => simp at h
  | cons r rs ih =>
    cases vals with
    | nil => simp at h
    | cons v vs =>
      simp only [List.zipWith_cons_cons, List.map_cons]
      congr 1
      · rw [List.getD_append_right _ _ _ _ (le_of_eq (hk r (by simp)))]
        simp [hk r (by simp)]
      · exact ih (by simpa using h) (fun r2 hr2 => hk r2 (by simp [hr2]))

theorem zipWith_append_WF {rows : List Row} {vals : List Value} {k : Nat}
    (h : vals.length = rows.length) (hk : ∀ r ∈ rows, r.length = k) :
    ∀ r2 ∈ List.zipWith (fun r v => r ++ [v]) rows vals, r2.length = k + 1 := by
  induction rows generalizing vals with
  | nil => simp
  | cons r rs ih =>
    cases vals with
    | nil => simp at h
    | cons v vs =>
      intro r2 hr2
      simp only [List.zipWith_cons_cons, List.mem_cons] at hr2
      rcases hr2 with he | hm
      · subst he; simp [hk r (by simp)]
      · exact ih (by simpa using h) (fun r3 hr3 => hk r3 (by simp [hr3])) r2 hm

theorem setColFresh_spec (d : DF) (c : Col) (vals : List Value)
    (hfresh : c.name ∉ colNames d) (hlen : vals.length = d.rows.length)
    (hwf : WF d) :
    (setCol d c vals).cols = d.cols ++ [c] ∧
    WF (setCol d c vals) ∧
    (setCol d c vals).rows.length = d.rows.length ∧
    (∀ j, j < d.cols.length → colVals (setCol d c vals) j = colVals d j) ∧
    getCol (setCol d c vals) c.name = some vals := by
  have hidx : colIdxByName d c.name = none := (colIdxByName_none_iff d c.name).mpr hfresh
  have hsc : setCol d c vals
      = ⟨d.cols ++ [c], List.zipWith (fun r v => r ++ [v]) d.rows vals⟩ := by
    unfold setCol
    rw [hidx]
  rw [hsc]
  refine ⟨rfl, ?_, ?_, ?_, ?_⟩
  · intro r2 hr2
    have := zipWith_append_WF hlen (fun r hr => hwf r hr) r2 hr2
    simpa using this
  · exact zipWith_append_rows_length hlen
  · intro j hj
    unfold colVals
    exact zipWith_append_colVals hlen j (fun r hr => by rw [hwf r hr]; exact hj)
  · have hone : List.findIdx? (fun c0 => c0.name = c.name) [c] = some 0 := by
      simp [List.findIdx?_cons]
    unfold getCol colIdxByName
    rw [findIdx?_append_none _ _ _ hidx, hone]
    simp only [Option.map_some']
    congr 1
    have := zipWith_append_colVals_new hlen d.cols.length (fun r hr => hwf r hr)
    unfold colVals
    simpa using this

theorem extends_setCol_fresh {df d : DF} (hE : Extends df d) (c : Col)
    (vals : List Value) (hfresh : c.name ∉ colNames d)
    (hlen : vals.length = d.rows.length) :
    Extends df (setCol d c vals) ∧
    colNames (setCol d c vals) = colNames d ++ [c.name] ∧
    getCol (setCol d c vals) c.name = some vals := by
  obtain ⟨hwf, ⟨extra, hcols⟩, hrows, hvals⟩ := hE
  obtain ⟨hc, hw, hr, hv, hg⟩ := setColFresh_spec d c vals hfresh hlen hwf
  have hlen_df : df.cols.length ≤ d.cols.length := by
    rw [hcols]; simp
  refine ⟨⟨hw, ⟨extra ++ [c], by rw [hc, hcols, List.append_assoc]⟩,
    by rw [hr, hrows], ?_⟩, ?_, hg⟩
  · intro j hj
    rw [hv j (lt_of_lt_of_le hj hlen_df), hvals j hj]
  · unfold colNames
    rw [hc, List.map_append]
    rfl

theorem getCol_setCol_fresh_other (d : DF) (c : Col) (vals : List Value)
    (nm : String) (hfresh : c.name ∉ colNames d) (hlen : vals.length = d.rows.length)
    (hwf : WF d) (hne : nm ≠ c.name) :
    getCol (setCol d c vals) nm = getCol d nm := by
  have hidx : colIdxByName d c.name = none := (colIdxByName_none_iff d c.name).mpr hfresh
  have hsc : setCol d c vals
      = ⟨d.cols ++ [c], List.zipWith (fun r v => r ++ [v]) d.rows vals⟩ := by
    unfold setCol
    rw [hidx]
  rw [hsc]
  unfold getCol colIdxByName
  cases hq : List.findIdx? (fun c0 => c0.name = nm) d.cols with
  | some j =>
    rw [findIdx?_append_some _ _ _ _ hq]
    simp only [Option.map_some']
    congr 1
    have hjlt : j < d.cols.length := findIdx?_some_lt hq
    unfold colVals
    exact zipWith_append_colVals hlen j (fun r hr => by rw [hwf r hr]; exact hjlt)
  | none =>
    rw [findIdx?_append_none _ _ _ hq]
    have hnone : List.findIdx? (fun c0 => c0.name = nm) [c] = none := by
      simp [List.findIdx?_cons, Ne.symm hne]
    rw [hnone]
    rfl

theorem colIdxByName_mem (d : DF) (nm : String) (h : nm ∈ colNames d) :
    ∃ j, colIdxByName d nm = some j := by
  cases hq : colIdxByName d nm with
  | none => exact (((colIdxByName_none_iff d nm).mp hq) h).elim
  | some j => exact ⟨j, rfl⟩

theorem colNums_congr {df d : DF} (j : Nat) (h : colVals d j = colVals df j) :
    colNums d j = colNums df j := by
  unfold colNums
  rw [h]

theorem extends_colIdxByName {df d : DF} (hE : Extends df d) (nm : String)
    (j : Nat) (h : colIdxByName df nm = some j) : colIdxByName d nm = some j := by
  obtain ⟨_, ⟨extra, hcols⟩, _, _⟩ := hE
  unfold colIdxByName at h ⊢
  rw [hcols]
  exact findIdx?_append_some _ _ _ _ h

theorem normFold_spec (df : DF) :
    ∀ (cs : List String) (d : DF),
      Extends df d →
      cs.Nodup →
      (∀ c ∈ cs, ∃ j, colIdxByName df c = some j) →
      (∀ c ∈ cs, (c ++ "_normalized") ∉ colNames d) →
      Extends df (cs.foldl normStep d) ∧
      (∀ nm, nm ∈ colNames (cs.foldl normStep d) →
        nm ∈ colNames d ∨ ∃ c ∈ cs, nm = c ++ "_normalized") ∧
      (∀ nm, nm ∈ colNames d → getCol (cs.foldl normStep d) nm = getCol d nm) ∧
      (∀ c ∈ cs, ∀ j, colIdxByName df c = some j →
        ((∀ m M, listMin (colNums df j) = some m → listMax (colNums df j) = some M →
            m < M →
            getCol (cs.foldl normStep d) (c ++ "_normalized")
              = some ((colVals df j).map (normCell m M))) ∧
         (∀ m M, listMin (colNums df j) = some m → listMax (colNums df j) = some M →
            ¬ m < M → (c ++ "_normalized") ∉ colNames (cs.foldl normStep d)) ∧
         (listMin (colNums df j) = none →
            (c ++ "_normalized") ∉ colNames (cs.foldl normStep d)))) := by
  intro cs
  induction cs with
  | nil =>
    intro d hE _ _ _
    refine ⟨hE, fun nm h => Or.inl h, fun nm _ => rfl, fun c hc => by simp at hc⟩
  | cons c cs ih =>
    intro d hE hnd hidx hpend
    obtain ⟨hcmem, hndtail⟩ := List.nodup_cons.mp hnd
    obtain ⟨j0, hj0⟩ := hidx c (by simp)
    have hj0d : colIdxByName d c = some j0 := extends_colIdxByName hE c j0 hj0
    have hj0lt : j0 < df.cols.length := findIdx?_some_lt hj0
    have hcv : colVals d j0 = colVals df j0 := hE.2.2.2 j0 hj0lt
    have hcn : colNums d j0 = colNums df j0 := colNums_congr j0 hcv
    have hfreshc : (c ++ "_normalized") ∉ colNames d := hpend c (by simp)
    have hne_norm : ∀ c2 : String, c2 ≠ c →
        c2 ++ "_normalized" ≠ c ++ "_normalized" :=
      fun c2 hne he => hne (string_append_right_cancel he)
    have hidxtail : ∀ c2 ∈ cs, ∃ j, colIdxByName df c2 = some j :=
      fun c2 hc2 => hidx c2 (by simp [hc2])
    -- the skip case is shared by three subcases below
    have skip_case : normStep d c = d →
        (∀ m M, listMin (colNums df j0) = some m →
          listMax (colNums df j0) = some M → m < M → False) →
        Extends df ((c :: cs).foldl normStep d) ∧
        (∀ nm, nm ∈ colNames ((c :: cs).foldl normStep d) →
          nm ∈ colNames d ∨ ∃ c2 ∈ c :: cs, nm = c2 ++ "_normalized") ∧
        (∀ nm, nm ∈ colNames d →
          getCol ((c :: cs).foldl normStep d) nm = getCol d nm) ∧
        (∀ c2 ∈ c :: cs, ∀ j, colIdxByName df c2 = some j →
          ((∀ m M, listMin (colNums df j) = some m →
              listMax (colNums df j) = some M → m < M →
              getCol ((c :: cs).foldl normStep d) (c2 ++ "_normalized")
                = some ((colVals df j).map (normCell m M))) ∧
           (∀ m M, listMin (colNums df j) = some m →
              listMax (colNums df j) = some M → ¬ m < M →
              (c2 ++ "_normalized") ∉ colNames ((c :: cs).foldl normStep d)) ∧
           (listMin (colNums df j) = none →
              (c2 ++ "_normalized") ∉ colNames ((c :: cs).foldl normStep d)))) := by
      intro hd' hnopos
      have hfold : (c :: cs).foldl normStep d = cs.foldl normStep d := by
        rw [List.foldl_cons, hd']
      rw [hfold]
      obtain ⟨E2, memb2, pres2, P2⟩ := ih d hE hndtail hidxtail
        (fun c2 hc2 => hpend c2 (by simp [hc2]))
      have hnotin : (c ++ "_normalized") ∉ colNames (cs.foldl normStep d) := by
        intro hin
        rcases memb2 _ hin with hind | ⟨c2, hc2, he⟩
        · exact hfreshc hind
        · exact hcmem (by rw [string_append_right_cancel he.symm] at hc2; exact hc2)
      refine ⟨E2, ?_, pres2, ?_⟩
      · intro nm hnm
        rcases memb2 nm hnm with h1 | ⟨c2, hc2, he⟩
        · exact Or.inl h1
        · exact Or.inr ⟨c2, by simp [hc2], he⟩
      · intro c2 hc2 j hj
        rcases List.mem_cons.mp hc2 with rfl | hc2tail
        · have hj0eq : j = j0 := by rw [hj0] at hj; injection hj with h; exact h.symm
          subst hj0eq
          refine ⟨?_, ?_, ?_⟩
          · intro m M hm hM hlt
            exact (hnopos m M hm hM hlt).elim
          · intro m M hm hM hnlt
            exact hnotin
          · intro hm
            exact hnotin
        · exact P2 c2 hc2tail j hj
    -- case analysis on the min/max of the head column
    cases hmin : listMin (colNums df j0) with
    | none =>
      have hd' : normStep d c = d := by
        unfold normStep
        simp only [hj0d, hcn, hcv, hmin]
      exact skip_case hd' (fun m M hm _ _ => by simp [hmin] at hm)
    | some m =>
      cases hmax : listMax (colNums df j0) with
      | none =>
        have hd' : normStep d c = d := by
          unfold normStep
          simp only [hj0d, hcn, hcv, hmin, hmax]
        exact skip_case hd'
          (fun m2 M2 _ hM _ => by rw [hmax] at hM; exact Option.noConfusion hM)
      | some M =>
        by_cases hlt : m < M
        · -- the append case
          have hd' : normStep d c = setCol d ⟨c ++ "_normalized", true⟩
              ((colVals df j0).map (normCell m M)) := by
            unfold normStep
            simp only [hj0d, hcn, hcv, hmin, hmax]
            rw [if_pos hlt]
          have hvlen : ((colVals df j0).map (normCell m M)).length = d.rows.length := by
            simp [colVals_length, hE.2.2.1]
          obtain ⟨EA, hnamesA, hgetA⟩ := extends_setCol_fresh hE
            ⟨c ++ "_normalized", true⟩ ((colVals df j0).map (normCell m M))
            hfreshc hvlen
          have hfold : (c :: cs).foldl normStep d
              = cs.foldl normStep (setCol d ⟨c ++ "_normalized", true⟩
                  ((colVals df j0).map (normCell m M))) := by
            rw [List.foldl_cons, hd']
          have hpendA : ∀ c2 ∈ cs, (c2 ++ "_normalized")
              ∉ colNames (setCol d ⟨c ++ "_normalized", true⟩
                  ((colVals df j0).map (normCell m M))) := by
            intro c2 hc2
            rw [hnamesA]
            intro hin
            rcases List.mem_append.mp hin with h1 | h2
            · exact hpend c2 (by simp [hc2]) h1
            · have : c2 ++ "_normalized" = c ++ "_normalized" := by simpa using h2
              exact hne_norm c2 (fun he => hcmem (he ▸ hc2)) this
          obtain ⟨E2, memb2, pres2, P2⟩ := ih _ EA hndtail hidxtail hpendA
          rw [hfold]
          have hnormmem : (c ++ "_normalized")
              ∈ colNames (setCol d ⟨c ++ "_normalized", true⟩
                  ((colVals df j0).map (normCell m M))) := by
            rw [hnamesA]
            simp
          refine ⟨E2, ?_, ?_, ?_⟩
          · intro nm hnm
            rcases memb2 nm hnm with h1 | ⟨c2, hc2, he⟩
            · rw [hnamesA] at h1
              rcases List.mem_append.mp h1 with h3 | h4
              · exact Or.inl h3
              · exact Or.inr ⟨c, by simp, by simpa using h4⟩
            · exact Or.inr ⟨c2, by simp [hc2], he⟩
          · intro nm hnm
            have hnm' : nm ∈ colNames (setCol d ⟨c ++ "_normalized", true⟩
                ((colVals df j0).map (normCell m M))) := by
              rw [hnamesA]
              exact List.mem_append_left _ hnm
            rw [pres2 nm hnm']
            exact getCol_setCol_fresh_other d _ _ nm hfreshc hvlen hE.1
              (show nm ≠ c ++ "_normalized" from fun he => hfreshc (he ▸ hnm))
          · intro c2 hc2 j hj
            rcases List.mem_cons.mp hc2 with rfl | hc2tail
            · have hj0eq : j = j0 := by rw [hj0] at hj; injection hj with h; exact h.symm
              subst hj0eq
              refine ⟨?_, ?_, ?_⟩
              · intro m2 M2 hm2 hM2 _
                have hm2e : m2 = m := by rw [hmin] at hm2; injection hm2 with h; exact h.symm
                have hM2e : M2 = M := by rw [hmax] at hM2; injection hM2 with h; exact h.symm
                subst hm2e
                subst hM2e
                rw [pres2 _ hnormmem]
                exact hgetA
              · intro m2 M2 hm2 hM2 hnlt
                have hm2e : m2 = m := by rw [hmin] at hm2; injection hm2 with h; exact h.symm
                have hM2e : M2 = M := by rw [hmax] at hM2; injection hM2 with h; exact h.symm
                subst hm2e
                subst hM2e
                exact absurd hlt hnlt
              · intro hm2
                rw [hmin] at hm2
                exact Option.noConfusion hm2
            · exact P2 c2 hc2tail j hj
        · -- equal min and max: the zero-range skip
          have hd' : normStep d c = d := by
            unfold normStep
            simp only [hj0d, hcn, hcv, hmin, hmax]
            rw [if_neg hlt]
          refine skip_case hd' ?_
          intro m2 M2 hm2 hM2 hlt2
          have hm2e : m2 = m := by rw [hmin] at hm2; injection hm2 with h; exact h.symm
          have hM2e : M2 = M := by rw [hmax] at hM2; injection hM2 with h; exact h.symm
          subst hm2e
          subst hM2e
          exact hlt hlt2

theorem mem_reserved_sum : ("numeric_sum" : String) ∈ reservedNames := by decide

theorem mem_reserved_mean : ("numeric_mean" : String) ∈ reservedNames := by decide

theorem mem_reserved_std : ("numeric_std" : String) ∈ reservedNames := by decide

theorem mem_reserved_tt : ("transform_timestamp" : String) ∈ reservedNames := by decide

theorem mem_reserved_rh : ("record_hash" : String) ∈ reservedNames := by decide

/-- No column name of the form `<s>_normalized` collides with a reserved
derived-column name. -/
theorem norm_ne_reserved (s : String) :
    ∀ u ∈ reservedNames, s ++ "_normalized" ≠ u := by
  intro u hu
  fin_cases hu <;> exact not_append_eq_of_not_suffix _ _ _ (by decide)

theorem numericNames_sub_colNames (df : DF) :
    ∀ c ∈ numericNames df, c ∈ colNames df := by
  intro c hc
  unfold numericNames at hc
  obtain ⟨col, hcol, he⟩ := List.mem_map.mp hc
  exact List.mem_map.mpr ⟨col, List.mem_of_mem_filter hcol, he⟩

theorem numericNames_nodup (df : DF) (hnd : (colNames df).Nodup) :
    (numericNames df).Nodup := by
  have hsub : List.Sublist (numericNames df) (colNames df) :=
    List.Sublist.map _ (List.filter_sublist _)
  exact hnd.sublist hsub

theorem addAggregates_spec (df : DF) (sqrt : ℚ → ℚ) (hwf : WF df)
    (hrsv : ∀ nm ∈ colNames df, nm ∉ reservedNames) :
    Extends df (addAggregates df sqrt) ∧
    colNames (addAggregates df sqrt)
      = ((colNames df ++ ["numeric_sum"]) ++ ["numeric_mean"]) ++ ["numeric_std"] := by
  have hErefl : Extends df df := ⟨hwf, ⟨[], by simp⟩, rfl, fun _ _ => rfl⟩
  unfold addAggregates
  dsimp only
  set dfa := setCol df ⟨"numeric_sum", true⟩
    (df.rows.map (fun r => pdRowSum (rowNums df (numericNames df) r))) with hdfa
  have hfs : ("numeric_sum" : String) ∉ colNames df :=
    fun hin => hrsv _ hin mem_reserved_sum
  have hA := extends_setCol_fresh hErefl ⟨"numeric_sum", true⟩
    (df.rows.map (fun r => pdRowSum (rowNums df (numericNames df) r))) hfs (by simp)
  rw [← hdfa] at hA
  obtain ⟨EA, hnA, _⟩ := hA
  set dfb := setCol dfa ⟨"numeric_mean", true⟩
    (dfa.rows.map (fun r => pdRowMean (rowNums dfa (numericNames df) r))) with hdfb
  have hfm : ("numeric_mean" : String) ∉ colNames dfa := by
    rw [hnA]
    intro hin
    rcases List.mem_append.mp hin with h1 | h2
    · exact hrsv _ h1 mem_reserved_mean
    · simp at h2
  have hB := extends_setCol_fresh EA ⟨"numeric_mean", true⟩
    (dfa.rows.map (fun r => pdRowMean (rowNums dfa (numericNames df) r))) hfm (by simp)
  rw [← hdfb] at hB
  obtain ⟨EB, hnB, _⟩ := hB
  have hfstd : ("numeric_std" : String) ∉ colNames dfb := by
    rw [hnB, hnA]
    intro hin
    rcases List.mem_append.mp hin with h1 | h2
    · rcases List.mem_append.mp h1 with h3 | h4
      · exact hrsv _ h3 mem_reserved_std
      · simp at h4
    · simp at h2
  have hC := extends_setCol_fresh EB ⟨"numeric_std", true⟩
    (dfb.rows.map (fun r => pdRowStd sqrt (rowNums dfb (numericNames df) r))) hfstd (by simp)
  obtain ⟨EC, hnC, _⟩ := hC
  refine ⟨EC, ?_⟩
  rw [hnC, hnB, hnA]

theorem transform_structure (df : DF) (ts : String) (hashFn : Row → ℚ)
    (sqrt : ℚ → ℚ) (hwf : WF df) (hnd : (colNames df).Nodup)
    (hrsv : ∀ nm ∈ colNames df, nm ∉ reservedNames)
    (hnorm : ∀ c ∈ numericNames df, (c ++ "_normalized") ∉ colNames df)
    (hne : (numericNames df).isEmpty = false) :
    (∀ c ∈ (numericNames df).take 3, ∀ j, colIdxByName df c = some j →
      (∀ m M, listMin (colNums df j) = some m → listMax (colNums df j) = some M →
        m < M →
        getCol (transform_data df ts hashFn sqrt) (c ++ "_normalized")
          = some ((colVals df j).map (normCell m M))) ∧
      (∀ m M, listMin (colNums df j) = some m → listMax (colNums df j) = some M →
        ¬ m < M →
        (c ++ "_normalized") ∉ colNames (transform_data df ts hashFn sqrt)) ∧
      (listMin (colNums df j) = none →
        (c ++ "_normalized") ∉ colNames (transform_data df ts hashFn sqrt))) ∧
    (∀ c ∈ (numericNames df).drop 3,
      (c ++ "_normalized") ∉ colNames (transform_data df ts hashFn sqrt)) := by
  obtain ⟨EC, hnC⟩ := addAggregates_spec df sqrt hwf hrsv
  have hnnd : (numericNames df).Nodup := numericNames_nodup df hnd
  have htknd : ((numericNames df).take 3).Nodup :=
    hnnd.sublist (List.take_sublist 3 _)
  have htkmem : ∀ c ∈ (numericNames df).take 3, c ∈ numericNames df :=
    fun c hc => List.take_subset _ _ hc
  have hdis : List.Disjoint ((numericNames df).take 3) ((numericNames df).drop 3) := by
    have h := hnnd
    rw [← List.take_append_drop 3 (numericNames df)] at h
    exact (List.nodup_append.mp h).2.2
  have hidx3 : ∀ c ∈ (numericNames df).take 3, ∃ j, colIdxByName df c = some j :=
    fun c hc => colIdxByName_mem df c (numericNames_sub_colNames df c (htkmem c hc))
  have hpend3 : ∀ c ∈ (numericNames df).take 3,
      (c ++ "_normalized") ∉ colNames (addAggregates df sqrt) := by
    intro c hc hin
    rw [hnC] at hin
    rcases List.mem_append.mp hin with h1 | h2
    · rcases List.mem_append.mp h1 with h3 | h4
      · rcases List.mem_append.mp h3 with h5 | h6
        · exact hnorm c (htkmem c hc) h5
        · exact norm_ne_reserved c _ mem_reserved_sum (by simpa using h6)
      · exact norm_ne_reserved c _ mem_reserved_mean (by simpa using h4)
    · exact norm_ne_reserved c _ mem_reserved_std (by simpa using h2)
  obtain ⟨E1, memb1, pres1, P1⟩ := normFold_spec df ((numericNames df).take 3)
    (addAggregates df sqrt) EC htknd hidx3 hpend3
  have hT : transform_data df ts hashFn sqrt
      = setCol
          (setCol (((numericNames df).take 3).foldl normStep (addAggregates df sqrt))
            ⟨"transform_timestamp", false⟩
            ((((numericNames df).take 3).foldl normStep (addAggregates df sqrt)).rows.map
              (fun _ => Value.str ts)))
          ⟨"record_hash", true⟩
          ((setCol (((numericNames df).take 3).foldl normStep (addAggregates df sqrt))
            ⟨"transform_timestamp", false⟩
            ((((numericNames df).take 3).foldl normStep (addAggregates df sqrt)).rows.map
              (fun _ => Value.str ts))).rows.map (fun r => Value.num (hashFn r))) := by
    unfold transform_data
    dsimp only
    rw [if_neg (by simp [hne])]
  rw [hT]
  set df1 := ((numericNames df).take 3).foldl normStep (addAggregates df sqrt) with hdf1
  set df2 := setCol df1 ⟨"transform_timestamp", false⟩
    (df1.rows.map (fun _ => Value.str ts)) with hdf2
  have httmem : ("transform_timestamp" : String) ∉ colNames df1 := by
    intro hin
    rcases memb1 _ hin with h1 | ⟨c, hc, he⟩
    · rw [hnC] at h1
      rcases List.mem_append.mp h1 with h3 | h4
      · rcases List.mem_append.mp h3 with h5 | h6
        · rcases List.mem_append.mp h5 with h7 | h8
          · exact hrsv _ h7 mem_reserved_tt
          · simp at h8
        · simp at h6
      · simp at h4
    · exact norm_ne_reserved c _ mem_reserved_tt he.symm
  obtain ⟨E2, hn2, _⟩ := extends_setCol_fresh E1 ⟨"transform_timestamp", false⟩
    (df1.rows.map (fun _ => Value.str ts)) httmem (by simp)
  rw [← hdf2] at E2 hn2
  have hrhmem : ("record_hash" : String) ∉ colNames df2 := by
    rw [hn2]
    intro hin
    rcases List.mem_append.mp hin with h1 | h2
    · rcases memb1 _ h1 with h3 | ⟨c, hc, he⟩
      · rw [hnC] at h3
        rcases List.mem_append.mp h3 with h4 | h5
        · rcases List.mem_append.mp h4 with h6 | h7
          · rcases List.mem_append.mp h6 with h8 | h9
            · exact hrsv _ h8 mem_reserved_rh
            · simp at h9
          · simp at h7
        · simp at h5
      · exact norm_ne_reserved c _ mem_reserved_rh he.symm
    · simp at h2
  obtain ⟨E3, hn3, _⟩ := extends_setCol_fresh E2 ⟨"record_hash", true⟩
    (df2.rows.map (fun r => Value.num (hashFn r))) hrhmem (by simp)
  have hgets : ∀ c : String,
      getCol (setCol df2 ⟨"record_hash", true⟩
          (df2.rows.map (fun r => Value.num (hashFn r)))) (c ++ "_normalized")
        = getCol df1 (c ++ "_normalized") := by
    intro c
    rw [getCol_setCol_fresh_other df2 _ _ _ hrhmem (by simp) E2.1
        (norm_ne_reserved c _ mem_reserved_rh),
      hdf2,
      getCol_setCol_fresh_other df1 _ _ _ httmem (by simp) E1.1
        (norm_ne_reserved c _ mem_reserved_tt)]
  have hmemT : ∀ nm : String, nm ∉ colNames df1 → nm ≠ "transform_timestamp" →
      nm ≠ "record_hash" →
      nm ∉ colNames (setCol df2 ⟨"record_hash", true⟩
        (df2.rows.map (fun r => Value.num (hashFn r)))) := by
    intro nm h1 h2 h3 hin
    rw [hn3, hn2] at hin
    rcases List.mem_append.mp hin with h4 | h5
    · rcases List.mem_append.mp h4 with h6 | h7
      · exact h1 h6
      · exact h2 (by simpa using h7)
    · exact h3 (by simpa using h5)
  constructor
  · intro c hc j hj
    refine ⟨?_, ?_, ?_⟩
    · intro m M hm hM hlt
      rw [hgets c]
      exact (P1 c hc j hj).1 m M hm hM hlt
    · intro m M hm hM hnlt
      exact hmemT _ ((P1 c hc j hj).2.1 m M hm hM hnlt)
        (norm_ne_reserved c _ mem_reserved_tt)
        (norm_ne_reserved c _ mem_reserved_rh)
    · intro hm
      exact hmemT _ ((P1 c hc j hj).2.2 hm)
        (norm_ne_reserved c _ mem_reserved_tt)
        (norm_ne_reserved c _ mem_reserved_rh)
  · intro c hc
    have h1 : (c ++ "_normalized") ∉ colNames df1 := by
      intro hin
      rcases memb1 _ hin with h2 | ⟨c2, hc2, he⟩
      · rw [hnC] at h2
        rcases List.mem_append.mp h2 with h3 | h4
        · rcases List.mem_append.mp h3 with h5 | h6
          · rcases List.mem_append.mp h5 with h7 | h8
            · exact hnorm c (List.drop_subset _ _ hc) h7
            · exact norm_ne_reserved c _ mem_reserved_sum (by simpa using h8)
          · exact norm_ne_reserved c _ mem_reserved_mean (by simpa using h6)
        · exact norm_ne_reserved c _ mem_reserved_std (by simpa using h4)
      · have hcc : c = c2 := string_append_right_cancel he
        subst hcc
        exact hdis hc2 hc
    exact hmemT _ h1 (norm_ne_reserved c _ mem_reserved_tt)
      (norm_ne_reserved c _ mem_reserved_rh)

/-- C6: under well-formedness and non-colliding column names, the
enrichment stage normalizes exactly the first (up to) 3 numeric columns of
the input.  For such a column with attained minimum `m` and maximum `M`:
when `M > m` the output carries `<col>_normalized` whose cells are
`(v - m)/(M - m)` (missing cells stay missing), every value lies in
`[0, 1]`, and the minimum maps to 0 and the maximum to 1; when the range is
zero (`M = m`) or the column has no values, no `<col>_normalized` column is
emitted — and, the function being total, nothing raises.  Numeric columns
beyond the first 3 never receive a normalized column. -/
theorem transform_normalization_spec (df : DF) (ts : String) (hashFn : Row → ℚ)
    (sqrt : ℚ → ℚ) (hwf : WF df) (hnd : (colNames df).Nodup)
    (hrsv : ∀ nm ∈ colNames df, nm ∉ reservedNames)
    (hnorm : ∀ c ∈ numericNames df, (c ++ "_normalized") ∉ colNames df) :
    (∀ c ∈ (numericNames df).take 3, ∀ j, colIdxByName df c = some j →
      (∀ m M, listMin (colNums df j) = some m → listMax (colNums df j) = some M →
        m < M →
        getCol (transform_data df ts hashFn sqrt) (c ++ "_normalized")
            = some ((colVals df j).map (normCell m M)) ∧
        m ∈ colNums df j ∧ M ∈ colNums df j ∧
        (∀ q ∈ colNums df j, 0 ≤ (q - m) / (M - m) ∧ (q - m) / (M - m) ≤ 1) ∧
        normCell m M (Value.num m) = Value.num 0 ∧
        normCell m M (Value.num M) = Value.num 1 ∧
        normCell m M Value.null = Value.null) ∧
      (∀ m M, listMin (colNums df j) = some m → listMax (colNums df j) = some M →
        ¬ m < M →
        (c ++ "_normalized") ∉ colNames (transform_data df ts hashFn sqrt)) ∧
      (colNums df j = [] →
        (c ++ "_normalized") ∉ colNames (transform_data df ts hashFn sqrt))) ∧
    (∀ c ∈ (numericNames df).drop 3,
      (c ++ "_normalized") ∉ colNames (transform_data df ts hashFn sqrt)) := by
  cases hne : (numericNames df).isEmpty with
  | true =>
    have hempty : numericNames df = [] := by
      cases hl : numericNames df with
      | nil => rfl
      | cons x xs => rw [hl] at hne; simp [List.isEmpty] at hne
    rw [hempty]
    exact ⟨fun c hc => by simp at hc, fun c hc => by simp at hc⟩
  | false =>
    obtain ⟨hA, hD⟩ := transform_structure df ts hashFn sqrt hwf hnd hrsv hnorm hne
    refine ⟨?_, hD⟩
    intro c hc j hj
    obtain ⟨hpos, hneg, hnil⟩ := hA c hc j hj
    refine ⟨?_, hneg, fun hnul => hnil ((listMin_eq_none_iff _).mpr hnul)⟩
    intro m M hm hM hlt
    have hMm : (0 : ℚ) < M - m := sub_pos.mpr hlt
    refine ⟨hpos m M hm hM hlt, listMin_mem hm, listMax_mem hM, ?_, ?_, ?_, rfl⟩
    · intro q hq
      exact ⟨div_nonneg (sub_nonneg.mpr (listMin_le hm q hq)) (le_of_lt hMm),
        (div_le_one hMm).mpr (sub_le_sub_right (le_listMax hM q hq) m)⟩
    · show Value.num (qDiv (qSub m m) (qSub M m)) = Value.num 0
      rw [qDiv_eq, qSub_eq, qSub_eq, sub_self, zero_div]
    · show Value.num (qDiv (qSub M m) (qSub M m)) = Value.num 1
      rw [qDiv_eq, qSub_eq, div_self (ne_of_gt hMm)]

/-- C6 witness: on `dfW4`, column `a` (values 0 and 10) receives
`a_normalized` with the normalized cells, the constant column `b` receives
no normalized column, and the fourth numeric column `d` receives none. -/
theorem transform_normalization_spec_witness :
    getCol (transform_data dfW4 ("T") (fun _ => 0) (fun _ => 0)) ("a" ++ "_normalized")
        = some ((colVals dfW4 0).map (normCell 0 10)) ∧
    ("b" ++ "_normalized") ∉ colNames (transform_data dfW4 ("T") (fun _ => 0) (fun _ => 0)) ∧
    ("d" ++ "_normalized") ∉ colNames (transform_data dfW4 ("T") (fun _ => 0) (fun _ => 0)) := by
  have h := transform_normalization_spec dfW4 ("T") (fun _ => 0) (fun _ => 0)
    (by decide) (by decide) (by decide) (by decide)
  refine ⟨((h.1 ("a") (by decide) 0 (by decide)).1 0 10 (by decide) (by decide)
    (by decide)).1, ?_, ?_⟩
  · exact (h.1 ("b") (by decide) 1 (by decide)).2.1 5 5 (by decide) (by decide) (by decide)
  · exact h.2 ("d") (by decide)
